import Mathlib

/-!
Verification of the horusdemodlib encoder wrapper (`src/horusdemodlib/encoder.py`)
against its natural-language specification.

The repository ships only the Python ctypes wrapper: the native codec
(`horus_l2_*` in libhorus) is not part of the sources.  Following the spec,
the missing core codec (CRC generator, Golay(23,12) block FEC, bit
interleaver/scrambler, framer) is modelled from the spec's own description;
every such definition carries a doc comment starting `Modelled from the spec:`.
The wrapper-level behaviour (type checks, buffer allocation, shapes of the
returned Python values) is translated directly from `encoder.py`.
-/

namespace Horus

/-! ### Bit/byte packing helpers -/

/-- Pad a list on the right with `d` up to length `m` (no-op when already longer). -/
def padTo (m : Nat) (d : α) (l : List α) : List α :=
  l ++ List.replicate (m - l.length) d

/-- Split a list into `m` consecutive chunks of `k` elements each. -/
def chunksRec : Nat → Nat → List α → List (List α)
  | 0, _, _ => []
  | m + 1, k, l => l.take k :: chunksRec m k (l.drop k)

/-- The `k`-bit big-endian (most significant bit first) representation of `w`. -/
def wordToBits : Nat → Nat → List Bool
  | 0, _ => []
  | k + 1, w => wordToBits k (w / 2) ++ [w % 2 == 1]

/-- Reassemble a big-endian bit list into a natural number. -/
def bitsToWord (l : List Bool) : Nat :=
  l.foldl (fun a b => 2 * a + (if b then 1 else 0)) 0

/-- Byte sequence to bit stream, each byte MSB-first. -/
def bytesToBits (bs : List Nat) : List Bool :=
  bs.flatMap (wordToBits 8)

/-- Pack a bit stream (length a multiple of 8) into bytes, MSB-first. -/
def bitsToBytes (l : List Bool) : List Nat :=
  (chunksRec (l.length / 8) 8 l).map bitsToWord

/-! ### CRC generator -/

/-- Modelled from the spec: one shift-and-conditionally-xor step of the
CRC-16 CCITT/XMODEM-class polynomial division (polynomial 0x1021), kept in 16 bits. -/
def crcStep (c : Nat) : Nat :=
  if c.testBit 15 then ((c * 2) ^^^ 0x1021) % 65536 else (c * 2) % 65536

/-- Modelled from the spec: fold one payload byte into the running CRC register. -/
def crcByte (c b : Nat) : Nat :=
  (List.range 8).foldl (fun acc _ => crcStep acc) (c ^^^ (b % 256) * 256)

/-- Modelled from the spec: `crc16(bytes) -> u16`, a pure CRC-16 over an
arbitrary-length byte sequence (the native `horus_l2_gen_crc16` is not in the sources). -/
def crc16 (bs : List Nat) : Nat :=
  (bs.foldl crcByte 0xFFFF) % 65536

/-- The two checksum bytes appended to a payload, high byte first. -/
def crcBytesOf (c : Nat) : List Nat :=
  [c / 256 % 256, c % 256]

/-! ### Golay (23,12) block FEC codec -/

/-- Modelled from the spec: generator polynomial of the (23,12) Golay code
(degree 11, `x^11 + x^9 + x^7 + x^6 + x^5 + x + 1`). -/
def golayGenPoly : Nat := 0xAE3

/-- Modelled from the spec: 11 parity bits of a 12-bit data word, computed by
GF(2) polynomial division of `d * x^11` by the generator polynomial. -/
def golayParity (d : Nat) : Nat :=
  ((wordToBits 12 d).foldl
    (fun r b =>
      let r2 := r * 2 + (if b then 1 else 0)
      if r2.testBit 11 then (r2 ^^^ golayGenPoly) % 2048 else r2 % 2048) 0) % 2048

/-- Modelled from the spec: `fec_encode(data12bits) -> codeword23bits`,
systematic: data word in the high 12 bits, parity in the low 11 bits. -/
def golayEncode (d : Nat) : Nat :=
  (d % 4096) * 2048 + golayParity d

/-- Syndrome of a received 23-bit word: re-encode the data part and compare parities. -/
def golaySyndrome (w : Nat) : Nat :=
  golayParity (w / 2048 % 4096) ^^^ w % 2048

/-- Number of set bits among the low 23 bits. -/
def weight23 (e : Nat) : Nat :=
  ((List.range 23).filter e.testBit).length

/-- All 23-bit error patterns of Hamming weight at most 3, weight 0 first. -/
def errorPatterns : List Nat :=
  [0] ++ ((List.range 23).map (fun i => 2 ^ i)) ++
  ((List.range 23).flatMap (fun i =>
    (List.range i).map (fun j => 2 ^ i ^^^ 2 ^ j))) ++
  ((List.range 23).flatMap (fun i =>
    (List.range i).flatMap (fun j =>
      (List.range j).map (fun k => 2 ^ i ^^^ 2 ^ j ^^^ 2 ^ k))))

/-- Modelled from the spec: `fec_decode(codeword23bits) -> (data12bits, error_count)`
by syndrome lookup over the weight-at-most-3 error patterns; `none` marks an
uncorrectable codeword. -/
def golayDecode (w : Nat) : Nat × Option Nat :=
  match errorPatterns.find? (fun e => golaySyndrome (w ^^^ e) == 0) with
  | some e => ((w ^^^ e) / 2048 % 4096, some (weight23 e))
  | none => (w / 2048 % 4096, none)

/-! ### Interleaver and scrambler -/

/-- Modelled from the spec: a fixed, length-parameterized, invertible bit
permutation spreading adjacent bits across the block (multiplicative map
`i -> (3 * i) mod n`, applied here as a gather with multiplier `s`). -/
def interleave (s : Nat) (l : List Bool) : List Bool :=
  (List.range l.length).map (fun i => l.getD (i * s % l.length) false)

/-- Multiplicative inverse of 3 modulo `n`, found by search; the de-interleave
multiplier for a block of `n` bits. -/
def invMult (n : Nat) : Nat :=
  ((List.range (n + 1)).find? (fun t => 3 * t % n == 1)).getD 0

/-- Modelled from the spec: one step of the 9-bit LFSR that generates the
scrambler's fixed pseudorandom whitening sequence. -/
def lfsrNext (s : Nat) : Nat :=
  (s * 2) % 512 + (if (s.testBit 8) != (s.testBit 4) then 1 else 0)

/-- The first `n` bits of the scrambler's pseudorandom sequence from state `s`. -/
def maskBits : Nat → Nat → List Bool
  | _, 0 => []
  | s, n + 1 => s.testBit 0 :: maskBits (lfsrNext s) n

/-- Modelled from the spec: XOR the bit stream with the deterministic
pseudorandom sequence seeded by the fixed constant `0x1FF`; self-inverse. -/
def scramble (l : List Bool) : List Bool :=
  l.zipWith xor (maskBits 0x1FF l.length)

/-! ### Core packet codec (orchestrator) -/

/-- The 2-byte unique word `0x24 0x24` prepended to every frame. -/
def uw : List Nat := [0x24, 0x24]

/-- Number of 23-bit codewords for a payload of `len` bytes: the payload bits
plus the 16 checksum bits, split into 12-bit groups (final group zero-padded). -/
def ncwOf (len : Nat) : Nat := (8 * len + 16 + 11) / 12

/-- The payload with its two checksum bytes appended (encode stage 1). -/
def withCrc (p : List Nat) : List Nat := p ++ crcBytesOf (crc16 p)

/-- The checksummed payload as a bit stream, zero-padded to whole 12-bit
groups (encode stage 2). -/
def encBits (p : List Nat) : List Bool :=
  padTo (12 * ncwOf p.length) false (bytesToBits (withCrc p))

/-- The Golay codewords of the 12-bit groups (encode stage 3). -/
def encWords (p : List Nat) : List Nat :=
  (chunksRec (ncwOf p.length) 12 (encBits p)).map (fun c => golayEncode (bitsToWord c))

/-- All codewords concatenated into one bit stream (encode stage 4). -/
def encStream (p : List Nat) : List Bool :=
  (encWords p).flatMap (wordToBits 23)

/-- Modelled from the spec: `encode` — compute the checksum, append it, split
into 12-bit groups, Golay-encode each group, interleave then scramble the full
block, pack to bytes and prepend the unique word (the native
`horus_l2_encode_tx_packet` is not in the sources). -/
def coreEncode (p : List Nat) : List Nat :=
  uw ++ bitsToBytes (padTo (8 * ((23 * ncwOf p.length + 7) / 8)) false
    (scramble (interleave 3 (encStream p))))

/-- Result of a core decode: sync status, decoded payload, checksum verdict and
per-codeword corrected-error counts (`none` = uncorrectable). -/
structure DecodeResult where
  synced : Bool
  payload : List Nat
  chkOk : Bool
  errCounts : List (Option Nat)

/-- The received FEC block as a bit stream: everything after the unique word,
truncated or zero-padded to the expected codeword-block size (decode stage 1). -/
def decStream (frame : List Nat) (len : Nat) : List Bool :=
  padTo (23 * ncwOf len) false ((bytesToBits (frame.drop 2)).take (23 * ncwOf len))

/-- Per-codeword Golay decode results after descrambling and de-interleaving
(decode stage 2). -/
def decResults (frame : List Nat) (len : Nat) : List (Nat × Option Nat) :=
  (chunksRec (ncwOf len) 23
    (interleave (invMult (23 * ncwOf len)) (scramble (decStream frame len)))).map
    (fun c => golayDecode (bitsToWord c))

/-- The decoded data bytes — payload plus received checksum — packed from the
recovered 12-bit groups, sized to exactly `len + 2` bytes (decode stage 3). -/
def decBytes (frame : List Nat) (len : Nat) : List Nat :=
  padTo (len + 2) 0 (bitsToBytes
    (((decResults frame len).flatMap (fun r => wordToBits 12 r.1)).take (8 * (len + 2))))

/-- Modelled from the spec: `decode` — validate the unique word, descramble,
de-interleave, Golay-decode every codeword, then re-check the checksum
(the native `horus_l2_decode_rx_packet` is not in the sources).  Corrupt or
short input never fails: it only degrades the reported status fields. -/
def coreDecode (frame : List Nat) (len : Nat) : DecodeResult :=
  { synced := frame.take 2 == uw
    payload := (decBytes frame len).take len
    chkOk := crcBytesOf (crc16 ((decBytes frame len).take len)) ==
      ((decBytes frame len).drop len).take 2
    errCounts := (decResults frame len).map Prod.snd }

/-- Modelled from the spec: `transmit_size` — the total frame byte count
(unique word plus interleaved/scrambled FEC block) for a `n`-byte payload,
computed arithmetically, without encoding (the native
`horus_l2_get_num_tx_data_bytes` is not in the sources). -/
def get_num_tx_data_bytes (n : Nat) : Nat :=
  2 + (23 * ncwOf n + 7) / 8

/-! ### Python wrapper (`encoder.py`), shallow embedding -/

/-- A Python runtime value, as far as the wrapper's interface is concerned. -/
inductive PyVal where
  | pybytes (bs : List Nat)
  | pystr (s : String)
  | pyint (n : Int)
  | pybool (b : Bool)
  | pytuple (vs : List PyVal)

/-- A Python exception escaping a wrapper call.  `typeError` is the wrapper's
realization of the spec's `InvalidInputError` (a `TypeError` raise). -/
inductive PyErr where
  | typeError (msg : String)
deriving DecidableEq

/-- Is the value a Python `bytes` object? -/
def PyVal.isBytes : PyVal → Bool
  | .pybytes _ => true
  | _ => false

/-- `Encoder.horus_l2_encode_packet` (encoder.py lines 108-135): reject
non-`bytes` input with a `TypeError`, allocate an output buffer of
`get_num_tx_data_bytes(len(packet))` bytes, let the native encoder fill it,
and return the tuple `(bytes(_encoded), _num_bytes)`. -/
def horus_l2_encode_packet (packet : PyVal) : Except PyErr PyVal :=
  match packet with
  | .pybytes bs =>
    let numEncoded := get_num_tx_data_bytes bs.length
    let buf := padTo numEncoded 0 ((coreEncode bs).take numEncoded)
    .ok (.pytuple [.pybytes buf, .pyint numEncoded])
  | _ => .error (.typeError "Input to encode_packet must be bytes!")

/-- `Encoder.horus_l2_decode_packet` (encoder.py lines 138-163): reject
non-`bytes` input with a `TypeError`, allocate an output buffer of
`num_payload_bytes` bytes, let the native decoder fill it, and return
`bytes(_decoded)` — only the payload bytes, nothing else. -/
def horus_l2_decode_packet (packet : PyVal) (num_payload_bytes : Nat) :
    Except PyErr PyVal :=
  match packet with
  | .pybytes bs =>
    let r := coreDecode bs num_payload_bytes
    .ok (.pybytes (padTo num_payload_bytes 0 (r.payload.take num_payload_bytes)))
  | _ => .error (.typeError "Input to encode_packet must be bytes!")

/-- Effect trace of `Encoder.__init__` (encoder.py lines 39-85): every
construction loads the library, declares the foreign signatures, and then
calls `horus_l2_init()` once, unconditionally — there is no run-once guard. -/
def encoderInitTrace : List String :=
  ["LoadLibrary", "declare_signatures", "horus_l2_init"]

/-- Number of `horus_l2_init` calls recorded in a process trace. -/
def initCallCount (trace : List String) : Nat :=
  (trace.filter (fun s => s == "horus_l2_init")).length

/-- Process-wide effect trace after constructing `k` `Encoder` objects. -/
def processTrace (k : Nat) : List String :=
  (List.replicate k encoderInitTrace).flatMap id

/-- Does a wrapper call return a Python 3-tuple? -/
def isTriple : Except PyErr PyVal → Bool
  | .ok (.pytuple [_, _, _]) => true
  | _ => false

/-- Does a wrapper call return a plain Python `bytes` value? -/
def isBytesResult : Except PyErr PyVal → Bool
  | .ok (.pybytes _) => true
  | _ => false

/-- Does a wrapper call return normally (no exception)? -/
def isOkResult : Except PyErr PyVal → Bool
  | .ok _ => true
  | .error _ => false

/-- The 22-byte Horus v1 test payload from the spec's concrete scenario 1
(hex `000900071E2A000000000000000000000000259A6B14`). -/
def horusV1Payload : List Nat :=
  [0x00, 0x09, 0x00, 0x07, 0x1E, 0x2A, 0x00, 0x00, 0x00, 0x00, 0x00, 0x00,
   0x00, 0x00, 0x00, 0x00, 0x00, 0x00, 0x25, 0x9A, 0x6B, 0x14]

/-- The 45-byte received frame from the spec's concrete scenario 2 (hex
`2424C06B300D0415C5DBD332EFD7C190D7AF7F3C2891DE9F4BA1EB2B437BE1E2D8419D3DC9E44FDF78DAA07A98`). -/
def horusV1Frame : List Nat :=
  [0x24, 0x24, 0xC0, 0x6B, 0x30, 0x0D, 0x04, 0x15, 0xC5, 0xDB, 0xD3, 0x32,
   0xEF, 0xD7, 0xC1, 0x90, 0xD7, 0xAF, 0x7F, 0x3C, 0x28, 0x91, 0xDE, 0x9F,
   0x4B, 0xA1, 0xEB, 0x2B, 0x43, 0x7B, 0xE1, 0xE2, 0xD8, 0x41, 0x9D, 0x3D,
   0xC9, 0xE4, 0x4F, 0xDF, 0x78, 0xDA, 0xA0, 0x7A, 0x98]

/-- A short, syntactically valid frame used to probe the wrapper's input
validation: it starts with the unique word but is not a full codec frame. -/
def demoFrame : List Nat := [0x24, 0x24, 0x01, 0x02, 0x03]

/-! ### Theorems -/

theorem padTo_length (m : Nat) (d : α) (l : List α) :
    (padTo m d l).length = max m l.length := by
  simp [padTo]
  omega

theorem padTo_of_le (m : Nat) (d : α) (l : List α) (h : m ≤ l.length) :
    padTo m d l = l := by
  simp [padTo, Nat.sub_eq_zero_of_le h]

theorem take_padTo (m : Nat) (d : α) (l : List α) (h : l.length = m) :
    (padTo m d l).take m = l := by
  subst h
  simp [padTo]

theorem wordToBits_length (k w : Nat) : (wordToBits k w).length = k := by
  induction k generalizing w with
  | zero => rfl
  | succ k ih => simp [wordToBits, ih]

theorem bitsToWord_append_single (l : List Bool) (b : Bool) :
    bitsToWord (l ++ [b]) = 2 * bitsToWord l + (if b then 1 else 0) := by
  simp [bitsToWord, List.foldl_append]

theorem bitsToWord_wordToBits (k w : Nat) :
    bitsToWord (wordToBits k w) = w % 2 ^ k := by
  induction k generalizing w with
  | zero => simp [wordToBits, bitsToWord, Nat.mod_one]
  | succ k ih =>
    rw [wordToBits, bitsToWord_append_single, ih]
    have h2 : (2 : Nat) ^ (k + 1) = 2 * 2 ^ k := by ring
    rw [h2, Nat.mod_mul]
    rcases Nat.mod_two_eq_zero_or_one w with h | h <;> simp [h] <;> ring

theorem bitsToWord_lt (l : List Bool) : bitsToWord l < 2 ^ l.length := by
  induction l using List.reverseRecOn with
  | nil => simp [bitsToWord]
  | append_singleton l b ih =>
    rw [bitsToWord_append_single]
    simp only [List.length_append, List.length_singleton]
    have h2 : (2 : Nat) ^ (l.length + 1) = 2 * 2 ^ l.length := by ring
    rw [h2]
    rcases b with _ | _ <;> simp <;> omega

theorem wordToBits_bitsToWord (l : List Bool) :
    wordToBits l.length (bitsToWord l) = l := by
  induction l using List.reverseRecOn with
  | nil => rfl
  | append_singleton l b ih =>
    rw [bitsToWord_append_single]
    simp only [List.length_append, List.length_singleton]
    rw [wordToBits]
    have hdiv : (2 * bitsToWord l + (if b then 1 else 0)) / 2 = bitsToWord l := by
      rcases b with _ | _ <;> simp <;> omega
    have hmod : (2 * bitsToWord l + (if b then 1 else 0)) % 2 = (if b then 1 else 0) := by
      rcases b with _ | _ <;> omega
    rw [hdiv, hmod, ih]
    rcases b with _ | _ <;> simp

theorem bytesToBits_length (bs : List Nat) :
    (bytesToBits bs).length = 8 * bs.length := by
  induction bs with
  | nil => rfl
  | cons b bs ih =>
    simp [bytesToBits, List.flatMap_cons, wordToBits_length] at ih ⊢
    omega

theorem chunksRec_flatMap (k : Nat) (f : β → List α) (bs : List β)
    (hf : ∀ b, (f b).length = k) :
    chunksRec bs.length k (bs.flatMap f) = bs.map f := by
  induction bs with
  | nil => rfl
  | cons b bs ih =>
    simp only [List.flatMap_cons, List.length_cons, chunksRec, List.map_cons]
    rw [List.take_left' (hf b), List.drop_left' (hf b), ih]

theorem chunksRec_length_mem (m k : Nat) (l : List α) (h : k * m ≤ l.length) :
    ∀ c ∈ chunksRec m k l, c.length = k := by
  induction m generalizing l with
  | zero => intro c hc; simp [chunksRec] at hc
  | succ m ih =>
    intro c hc
    simp only [chunksRec, List.mem_cons] at hc
    rcases hc with hc | hc
    · subst hc
      rw [List.length_take]
      have : k * (m + 1) = k + k * m := by ring
      omega
    · refine ih (l.drop k) ?_ c hc
      rw [List.length_drop]
      rw [Nat.mul_succ] at h
      omega

theorem chunksRec_flatMap_id (m k : Nat) (l : List α) :
    (chunksRec m k l).flatMap id = l.take (k * m) := by
  induction m generalizing l with
  | zero => simp [chunksRec]
  | succ m ih =>
    simp only [chunksRec, List.flatMap_cons, id]
    rw [ih]
    have hmul : k * (m + 1) = k + k * m := by ring
    rw [hmul, List.take_add]

theorem chunksRec_length (m k : Nat) (l : List α) :
    (chunksRec m k l).length = m := by
  induction m generalizing l with
  | zero => rfl
  | succ m ih => simp [chunksRec, ih]

theorem crcBytesOf_lt (c : Nat) : ∀ b ∈ crcBytesOf c, b < 256 := by
  intro b hb
  simp only [crcBytesOf, List.mem_cons, List.not_mem_nil, or_false] at hb
  rcases hb with h | h <;> subst h <;> exact Nat.mod_lt _ (by norm_num)

theorem golayParity_lt (d : Nat) : golayParity d < 2048 :=
  Nat.mod_lt _ (by norm_num)

theorem golayEncode_lt (d : Nat) : golayEncode d < 2 ^ 23 := by
  have h1 : d % 4096 < 4096 := Nat.mod_lt _ (by norm_num)
  have h2 := golayParity_lt d
  unfold golayEncode
  nlinarith

theorem golayEncode_div (d : Nat) : golayEncode d / 2048 % 4096 = d % 4096 := by
  unfold golayEncode
  rw [Nat.mul_comm (d % 4096) 2048, Nat.mul_add_div (by norm_num)]
  rw [Nat.div_eq_of_lt (golayParity_lt d), Nat.add_zero]
  omega

theorem golayEncode_mod (d : Nat) : golayEncode d % 2048 = golayParity d := by
  unfold golayEncode
  rw [Nat.mul_comm (d % 4096) 2048, Nat.mul_add_mod]
  exact Nat.mod_eq_of_lt (golayParity_lt d)

theorem wordToBits_mod (k w : Nat) : wordToBits k (w % 2 ^ k) = wordToBits k w := by
  induction k generalizing w with
  | zero => rfl
  | succ k ih =>
    have hx : (2 : Nat) ^ (k + 1) = 2 * 2 ^ k := by ring
    have hq : w % 2 ^ (k + 1) = w % 2 + 2 * (w / 2 % 2 ^ k) := by
      rw [hx, Nat.mod_mul]
    have hm2 : w % 2 < 2 := Nat.mod_lt _ (by norm_num)
    have hdiv : (w % 2 ^ (k + 1)) / 2 = w / 2 % 2 ^ k := by omega
    have hmod : (w % 2 ^ (k + 1)) % 2 = w % 2 := by omega
    rw [wordToBits, wordToBits, hdiv, hmod, ih]

theorem golayParity_mod (d : Nat) : golayParity (d % 4096) = golayParity d := by
  unfold golayParity
  have h : wordToBits 12 (d % 4096) = wordToBits 12 d := by
    have := wordToBits_mod 12 d
    norm_num at this
    exact this
  rw [h]

theorem golaySyndrome_encode (d : Nat) : golaySyndrome (golayEncode d) = 0 := by
  unfold golaySyndrome
  rw [golayEncode_div, golayEncode_mod, golayParity_mod, Nat.xor_self]

theorem golayDecode_encode (d : Nat) :
    golayDecode (golayEncode d) = (d % 4096, some 0) := by
  unfold golayDecode
  have h0 : (golaySyndrome (golayEncode d ^^^ 0) == 0) = true := by
    rw [Nat.xor_zero, golaySyndrome_encode]
    rfl
  have hfind : errorPatterns.find? (fun e => golaySyndrome (golayEncode d ^^^ e) == 0)
      = some 0 := by
    unfold errorPatterns
    simp only [List.cons_append, List.nil_append]
    exact List.find?_cons_of_pos _ h0
  rw [hfind]
  show ((golayEncode d ^^^ 0) / 2048 % 4096, some (weight23 0)) = (d % 4096, some 0)
  have hw : weight23 0 = 0 := by decide
  rw [Nat.xor_zero, golayEncode_div, hw]

theorem maskBits_length (s n : Nat) : (maskBits s n).length = n := by
  induction n generalizing s with
  | zero => rfl
  | succ n ih => simp [maskBits, ih]

theorem interleave_length (s : Nat) (l : List Bool) :
    (interleave s l).length = l.length := by
  simp [interleave]

theorem scramble_length (l : List Bool) : (scramble l).length = l.length := by
  simp [scramble, maskBits_length]

theorem zipWith_xor_cancel (l m : List Bool) (h : l.length ≤ m.length) :
    (l.zipWith xor m).zipWith xor m = l := by
  induction l generalizing m with
  | nil => simp
  | cons a l ih =>
    cases m with
    | nil => simp at h
    | cons b m =>
      simp only [List.zipWith_cons_cons, List.cons.injEq]
      refine ⟨by rcases a with _ | _ <;> rcases b with _ | _ <;> rfl, ?_⟩
      exact ih m (by simpa using h)

theorem scramble_scramble (l : List Bool) : scramble (scramble l) = l := by
  have hlen : (scramble l).length = l.length := scramble_length l
  unfold scramble
  rw [show (l.zipWith xor (maskBits 0x1FF l.length)).length = l.length from hlen]
  exact zipWith_xor_cancel l _ (by rw [maskBits_length])

theorem interleave_getElem (s : Nat) (l : List Bool) (i : Nat)
    (hi : i < (interleave s l).length) :
    (interleave s l)[i] = l.getD (i * s % l.length) false := by
  simp [interleave]

theorem interleave_interleave (s t : Nat) (l : List Bool)
    (h : t * s % l.length = 1) (hn : 1 < l.length) :
    interleave s (interleave t l) = l := by
  have hlen : (interleave t l).length = l.length := interleave_length t l
  apply List.ext_getElem
  · rw [interleave_length, hlen]
  · intro i h1 h2
    rw [interleave_getElem _ _ _ h1, hlen]
    have hidx : i * s % l.length < l.length := Nat.mod_lt _ (by omega)
    rw [List.getD_eq_getElem _ _ (by rw [hlen]; exact hidx)]
    rw [interleave_getElem _ _ _ (by rw [hlen]; exact hidx)]
    have hmodi : i % l.length = i := Nat.mod_eq_of_lt h2
    have harith : i * s % l.length * t % l.length = i := by
      rw [Nat.mod_mul_mod]
      have hassoc : i * s * t = i * (t * s) := by ring
      rw [hassoc, Nat.mul_mod, h, Nat.mul_one, hmodi, hmodi]
    rw [harith, List.getD_eq_getElem _ _ h2]

theorem flatMap_length_const (f : β → List α) (k : Nat) (hf : ∀ b, (f b).length = k)
    (l : List β) : (l.flatMap f).length = k * l.length := by
  induction l with
  | nil => simp
  | cons b l ih =>
    simp only [List.flatMap_cons, List.length_append, ih, hf, List.length_cons]
    ring

theorem flatMap_congr_mem (l : List β) (f g : β → List α) (h : ∀ b ∈ l, f b = g b) :
    l.flatMap f = l.flatMap g := by
  induction l with
  | nil => rfl
  | cons b l ih =>
    simp only [List.flatMap_cons]
    rw [h b (by simp), ih (fun b hb => h b (by simp [hb]))]

theorem flatMap_map_comp (g : β → γ) (f : γ → List α) (l : List β) :
    (l.map g).flatMap f = l.flatMap (fun b => f (g b)) := by
  induction l with
  | nil => rfl
  | cons b l ih => simp only [List.map_cons, List.flatMap_cons, ih]

theorem map_const_replicate (l : List α) (c : β) :
    l.map (fun _ => c) = List.replicate l.length c := by
  induction l with
  | nil => rfl
  | cons b l ih => simp [List.replicate_succ, ih]

theorem bytesToBits_map_bitsToWord (cs : List (List Bool)) (h : ∀ c ∈ cs, c.length = 8) :
    bytesToBits (cs.map bitsToWord) = cs.flatMap id := by
  induction cs with
  | nil => rfl
  | cons c cs ih =>
    have hc : c.length = 8 := h c (by simp)
    have hhead : wordToBits 8 (bitsToWord c) = c := by
      rw [← hc]
      exact wordToBits_bitsToWord c
    have htail := ih (fun x hx => h x (by simp [hx]))
    simp only [List.map_cons, bytesToBits, List.flatMap_cons, id] at htail ⊢
    rw [hhead, htail]

theorem bytesToBits_bitsToBytes (l : List Bool) (h : l.length % 8 = 0) :
    bytesToBits (bitsToBytes l) = l := by
  unfold bitsToBytes
  rw [bytesToBits_map_bitsToWord _ (chunksRec_length_mem _ _ _ (by omega))]
  rw [chunksRec_flatMap_id]
  have h8 : 8 * (l.length / 8) = l.length := by omega
  rw [h8, List.take_length]

theorem bitsToBytes_bytesToBits (bs : List Nat) (h : ∀ b ∈ bs, b < 256) :
    bitsToBytes (bytesToBits bs) = bs := by
  unfold bitsToBytes
  rw [bytesToBits_length]
  have hq : 8 * bs.length / 8 = bs.length := by omega
  rw [hq]
  have hc : chunksRec bs.length 8 (bytesToBits bs) = bs.map (wordToBits 8) :=
    chunksRec_flatMap 8 (wordToBits 8) bs (fun b => wordToBits_length 8 b)
  rw [hc, List.map_map]
  have hid : ∀ b ∈ bs, (bitsToWord ∘ wordToBits 8) b = id b := by
    intro b hb
    simp only [Function.comp, id]
    rw [bitsToWord_wordToBits]
    exact Nat.mod_eq_of_lt (by have := h b hb; norm_num; exact this)
  rw [List.map_congr_left hid, List.map_id]

theorem withCrc_length (p : List Nat) : (withCrc p).length = p.length + 2 := by
  simp [withCrc, crcBytesOf]

theorem withCrc_lt (p : List Nat) (hb : ∀ b ∈ p, b < 256) :
    ∀ b ∈ withCrc p, b < 256 := by
  intro b hbm
  rcases List.mem_append.mp hbm with hm | hm
  · exact hb b hm
  · exact crcBytesOf_lt _ b hm

theorem encBits_arith (n : Nat) : 8 * (n + 2) ≤ 12 * ncwOf n := by
  unfold ncwOf
  omega

theorem encBits_length (p : List Nat) : (encBits p).length = 12 * ncwOf p.length := by
  unfold encBits
  rw [padTo_length, bytesToBits_length, withCrc_length]
  have := encBits_arith p.length
  omega

theorem encWords_length (p : List Nat) : (encWords p).length = ncwOf p.length := by
  unfold encWords
  rw [List.length_map, chunksRec_length]

theorem encStream_length (p : List Nat) : (encStream p).length = 23 * ncwOf p.length := by
  unfold encStream
  rw [flatMap_length_const (wordToBits 23) 23 (fun w => wordToBits_length 23 w)]
  rw [encWords_length]

theorem coreEncode_length (p : List Nat) :
    (coreEncode p).length = get_num_tx_data_bytes p.length := by
  unfold coreEncode bitsToBytes get_num_tx_data_bytes
  rw [List.length_append, List.length_map, chunksRec_length, padTo_length,
    scramble_length, interleave_length, encStream_length]
  have huw : uw.length = 2 := rfl
  rw [huw]
  omega

theorem decStream_coreEncode (p : List Nat) :
    decStream (coreEncode p) p.length = scramble (interleave 3 (encStream p)) := by
  unfold decStream coreEncode
  rw [List.drop_left' (show uw.length = 2 from rfl)]
  have hscr : (scramble (interleave 3 (encStream p))).length = 23 * ncwOf p.length := by
    rw [scramble_length, interleave_length, encStream_length]
  have hpadlen : (padTo (8 * ((23 * ncwOf p.length + 7) / 8)) false
      (scramble (interleave 3 (encStream p)))).length % 8 = 0 := by
    rw [padTo_length, hscr]
    omega
  rw [bytesToBits_bitsToBytes _ hpadlen]
  have htake : (padTo (8 * ((23 * ncwOf p.length + 7) / 8)) false
      (scramble (interleave 3 (encStream p)))).take (23 * ncwOf p.length) =
      scramble (interleave 3 (encStream p)) := by
    unfold padTo
    exact List.take_left' hscr
  rw [htake, padTo_of_le _ _ _ (by rw [hscr])]

theorem decResults_coreEncode (p : List Nat)
    (hinv : 3 * invMult (23 * ncwOf p.length) % (23 * ncwOf p.length) = 1)
    (hn : 1 < 23 * ncwOf p.length) :
    decResults (coreEncode p) p.length =
      (chunksRec (ncwOf p.length) 12 (encBits p)).map (fun c => (bitsToWord c, some 0)) := by
  unfold decResults
  rw [decStream_coreEncode, scramble_scramble]
  have hintl : interleave (invMult (23 * ncwOf p.length)) (interleave 3 (encStream p)) =
      encStream p := by
    apply interleave_interleave
    · rw [encStream_length]; exact hinv
    · rw [encStream_length]; exact hn
  rw [hintl]
  have hchunks : chunksRec (ncwOf p.length) 23 (encStream p) =
      (encWords p).map (wordToBits 23) := by
    unfold encStream
    have hcf := chunksRec_flatMap 23 (wordToBits 23) (encWords p)
      (fun w => wordToBits_length 23 w)
    rwa [encWords_length] at hcf
  rw [hchunks, List.map_map]
  unfold encWords
  rw [List.map_map]
  apply List.map_congr_left
  intro c hc
  simp only [Function.comp]
  rw [bitsToWord_wordToBits, Nat.mod_eq_of_lt (golayEncode_lt _), golayDecode_encode]
  have hc12 : c.length = 12 :=
    chunksRec_length_mem _ _ _ (by rw [encBits_length]) c hc
  have hlt : bitsToWord c < 4096 := by
    have := bitsToWord_lt c
    rw [hc12] at this
    norm_num at this
    exact this
  rw [Nat.mod_eq_of_lt hlt]

theorem decBytes_coreEncode (p : List Nat) (hb : ∀ b ∈ p, b < 256)
    (hinv : 3 * invMult (23 * ncwOf p.length) % (23 * ncwOf p.length) = 1)
    (hn : 1 < 23 * ncwOf p.length) :
    decBytes (coreEncode p) p.length = withCrc p := by
  unfold decBytes
  rw [decResults_coreEncode p hinv hn, flatMap_map_comp]
  have hdata : (chunksRec (ncwOf p.length) 12 (encBits p)).flatMap
      (fun c => wordToBits 12 (bitsToWord c, some 0).1) = encBits p := by
    have hcongr : ∀ c ∈ chunksRec (ncwOf p.length) 12 (encBits p),
        wordToBits 12 ((bitsToWord c, some 0).1 : Nat) = id c := by
      intro c hc
      have hc12 : c.length = 12 :=
        chunksRec_length_mem _ _ _ (by rw [encBits_length]) c hc
      show wordToBits 12 (bitsToWord c) = c
      rw [← hc12, wordToBits_bitsToWord]
    rw [flatMap_congr_mem _ _ _ hcongr, chunksRec_flatMap_id, ← encBits_length,
      List.take_length]
  rw [hdata]
  have hbits : (bytesToBits (withCrc p)).length = 8 * (p.length + 2) := by
    rw [bytesToBits_length, withCrc_length]
  unfold encBits padTo
  rw [List.take_left' hbits, bitsToBytes_bytesToBits _ (withCrc_lt p hb)]
  rw [show withCrc p ++ List.replicate (p.length + 2 - (withCrc p).length) 0 = withCrc p
    from by rw [withCrc_length]; simp]

theorem coreDecode_coreEncode (p : List Nat) (hb : ∀ b ∈ p, b < 256)
    (hinv : 3 * invMult (23 * ncwOf p.length) % (23 * ncwOf p.length) = 1)
    (hn : 1 < 23 * ncwOf p.length) :
    coreDecode (coreEncode p) p.length =
      { synced := true, payload := p, chkOk := true,
        errCounts := List.replicate (ncwOf p.length) (some 0) } := by
  have hdec := decBytes_coreEncode p hb hinv hn
  have htake : (withCrc p).take p.length = p := by
    unfold withCrc
    exact List.take_left' rfl
  have hdrop : ((withCrc p).drop p.length).take 2 = crcBytesOf (crc16 p) := by
    unfold withCrc
    rw [List.drop_left' rfl]
    simp [crcBytesOf]
  unfold coreDecode
  rw [hdec, htake, hdrop]
  have hsync : ((coreEncode p).take 2 == uw) = true := by
    unfold coreEncode
    rw [List.take_left' (show uw.length = 2 from rfl)]
    exact beq_self_eq_true uw
  have hcrc : (crcBytesOf (crc16 p) == crcBytesOf (crc16 p)) = true :=
    beq_self_eq_true _
  have herr : (decResults (coreEncode p) p.length).map Prod.snd =
      List.replicate (ncwOf p.length) (some 0) := by
    rw [decResults_coreEncode p hinv hn, List.map_map]
    show (chunksRec (ncwOf p.length) 12 (encBits p)).map (fun _ => some 0) = _
    rw [map_const_replicate, chunksRec_length]
  rw [hsync, hcrc, herr]

theorem coreDecode_payload_length (frame : List Nat) (len : Nat) :
    (coreDecode frame len).payload.length = len := by
  show ((decBytes frame len).take len).length = len
  rw [List.length_take]
  have hge : len + 2 ≤ (decBytes frame len).length := by
    unfold decBytes
    rw [padTo_length]
    exact le_max_left _ _
  omega

theorem coreDecode_errCounts_length (frame : List Nat) (len : Nat) :
    (coreDecode frame len).errCounts.length = ncwOf len := by
  show ((decResults frame len).map Prod.snd).length = ncwOf len
  unfold decResults
  rw [List.length_map, List.length_map, chunksRec_length]

theorem horus_l2_decode_packet_ok (bs : List Nat) (n : Nat) :
    horus_l2_decode_packet (.pybytes bs) n =
      .ok (.pybytes ((coreDecode bs n).payload)) := by
  show Except.ok (PyVal.pybytes (padTo n 0 (((coreDecode bs n).payload).take n))) =
    Except.ok (PyVal.pybytes ((coreDecode bs n).payload))
  rw [show ((coreDecode bs n).payload).take n = (coreDecode bs n).payload from
    List.take_of_length_le (by rw [coreDecode_payload_length])]
  rw [padTo_of_le _ _ _ (by rw [coreDecode_payload_length])]

theorem encode_buf_eq (bs : List Nat) :
    padTo (get_num_tx_data_bytes bs.length) 0
      ((coreEncode bs).take (get_num_tx_data_bytes bs.length)) = coreEncode bs := by
  rw [← coreEncode_length, List.take_length, padTo_of_le _ _ _ (le_refl _)]

theorem initCallCount_processTrace (k : Nat) :
    initCallCount (processTrace k) = k := by
  induction k with
  | zero => rfl
  | succ k ih =>
    unfold processTrace at ih ⊢
    rw [List.replicate_succ, List.flatMap_cons]
    unfold initCallCount at ih ⊢
    rw [List.filter_append, List.length_append, ih]
    have h1 : (List.filter (fun s => s == "horus_l2_init") (id encoderInitTrace)).length
        = 1 := by rfl
    omega

theorem horus_l2_encode_packet_ok (bs : List Nat) :
    horus_l2_encode_packet (.pybytes bs) =
      .ok (.pytuple [.pybytes (coreEncode bs),
        .pyint (get_num_tx_data_bytes bs.length)]) := by
  show Except.ok (PyVal.pytuple [.pybytes (padTo (get_num_tx_data_bytes bs.length) 0
      ((coreEncode bs).take (get_num_tx_data_bytes bs.length))),
      .pyint (get_num_tx_data_bytes bs.length)]) = _
  rw [encode_buf_eq]

/-! ### The claims -/

set_option maxRecDepth 8000

/-- C1: for every payload of a supported length (22 or 32 bytes) whose entries
are byte values, encoding through the wrapper and then decoding the produced
buffer with the payload's length returns exactly the original payload, and the
core decode reports a passing checksum. -/
theorem claim_C1_roundtrip (p : List Nat) (hlen : p.length = 22 ∨ p.length = 32)
    (hb : ∀ b ∈ p, b < 256) :
    ∃ buf : List Nat,
      horus_l2_encode_packet (.pybytes p) =
        .ok (.pytuple [.pybytes buf, .pyint (get_num_tx_data_bytes p.length)]) ∧
      horus_l2_decode_packet (.pybytes buf) p.length = .ok (.pybytes p) ∧
      (coreDecode buf p.length).chkOk = true := by
  have hinv : 3 * invMult (23 * ncwOf p.length) % (23 * ncwOf p.length) = 1 := by
    rcases hlen with h | h <;> rw [h] <;> decide
  have hn : 1 < 23 * ncwOf p.length := by
    rcases hlen with h | h <;> rw [h] <;> decide
  have hrt := coreDecode_coreEncode p hb hinv hn
  refine ⟨coreEncode p, horus_l2_encode_packet_ok p, ?_, ?_⟩
  · rw [horus_l2_decode_packet_ok, hrt]
  · rw [hrt]

/-- Witness for C1 at the spec's scenario-1 payload
(hex `000900071E2A000000000000000000000000259A6B14`, 22 bytes). -/
theorem claim_C1_roundtrip_witness :
    ∃ buf : List Nat,
      horus_l2_encode_packet (.pybytes horusV1Payload) =
        .ok (.pytuple [.pybytes buf, .pyint (get_num_tx_data_bytes horusV1Payload.length)]) ∧
      horus_l2_decode_packet (.pybytes buf) horusV1Payload.length =
        .ok (.pybytes horusV1Payload) ∧
      (coreDecode buf horusV1Payload.length).chkOk = true :=
  claim_C1_roundtrip horusV1Payload (Or.inl rfl) (by decide)

/-- C2 counterexample: the wrapper decode of a well-typed frame returns a plain
`bytes` value, not the `(payload, checksum_ok, error_counts)` triple the claim
describes. -/
theorem claim_C2_counterexample :
    isTriple (horus_l2_decode_packet (.pybytes horusV1Frame) 22) = false := rfl

/-- C2 (amended): for every byte-typed frame and every expected length, the
wrapper decode returns normally with a `bytes` payload; the checksum verdict and
error counts are computed by the core but are not part of the wrapper's return. -/
theorem claim_C2_decode_shape (bs : List Nat) (n : Nat) :
    ∃ p : List Nat, horus_l2_decode_packet (.pybytes bs) n = .ok (.pybytes p) ∧
      isOkResult (horus_l2_decode_packet (.pybytes bs) n) = true :=
  ⟨(coreDecode bs n).payload, horus_l2_decode_packet_ok bs n,
    by rw [horus_l2_decode_packet_ok]; rfl⟩

/-- C3: encode and decode reject every non-bytes input with the type-check
error (the wrapper's realization of the spec's `InvalidInputError`), raised
before anything else runs, so the input is never coerced. -/
theorem claim_C3_invalid_input (v : PyVal) (h : v.isBytes = false) :
    horus_l2_encode_packet v =
      .error (.typeError "Input to encode_packet must be bytes!") ∧
    horus_l2_decode_packet v 22 =
      .error (.typeError "Input to encode_packet must be bytes!") := by
  cases v with
  | pybytes bs => simp [PyVal.isBytes] at h
  | pystr s => exact ⟨rfl, rfl⟩
  | pyint n => exact ⟨rfl, rfl⟩
  | pybool b => exact ⟨rfl, rfl⟩
  | pytuple vs => exact ⟨rfl, rfl⟩

/-- Witness for C3 at the spec's own example input, the string `"not bytes"`. -/
theorem claim_C3_invalid_input_witness :
    (PyVal.pystr "not bytes").isBytes = false ∧
    horus_l2_encode_packet (.pystr "not bytes") =
      .error (.typeError "Input to encode_packet must be bytes!") ∧
    horus_l2_decode_packet (.pystr "not bytes") 22 =
      .error (.typeError "Input to encode_packet must be bytes!") :=
  ⟨rfl, claim_C3_invalid_input (.pystr "not bytes") rfl⟩

/-- C4 counterexample: 17 is not a supported payload size, yet the wrapper
decode of a byte frame with expected length 17 returns normally instead of
failing with the input-validation error. -/
theorem claim_C4_counterexample :
    ((17 : Nat) ≠ 22 ∧ (17 : Nat) ≠ 32) ∧
    isOkResult (horus_l2_decode_packet (.pybytes demoFrame) 17) = true :=
  ⟨by decide, rfl⟩

/-- C4 (amended): the wrapper performs no validation of `expected_payload_len`
at all — even for values that match no supported protocol version, a byte-typed
call returns normally. -/
theorem claim_C4_no_validation (n : Nat) (h22 : n ≠ 22) (h32 : n ≠ 32) :
    isOkResult (horus_l2_decode_packet (.pybytes demoFrame) n) = true := rfl

/-- Witness for the amended C4 at the unsupported length 17. -/
theorem claim_C4_no_validation_witness :
    ((17 : Nat) ≠ 22) ∧ ((17 : Nat) ≠ 32) ∧
    isOkResult (horus_l2_decode_packet (.pybytes demoFrame) 17) = true :=
  ⟨by decide, by decide, claim_C4_no_validation 17 (by decide) (by decide)⟩

/-- C5 counterexample: the wrapper encode of a byte payload does not return a
plain `bytes` value — it returns a tuple. -/
theorem claim_C5_counterexample :
    isBytesResult (horus_l2_encode_packet (.pybytes horusV1Payload)) = false := rfl

/-- C5 (amended): for every byte payload, encode returns the 2-tuple
`(bytes(_encoded), _num_bytes)`, whose first element is the complete transmit
buffer and whose second is the transmit byte count. -/
theorem claim_C5_encode_shape (bs : List Nat) :
    horus_l2_encode_packet (.pybytes bs) =
      .ok (.pytuple [.pybytes (coreEncode bs),
        .pyint (get_num_tx_data_bytes bs.length)]) :=
  horus_l2_encode_packet_ok bs

/-- C6: the transmit-size function is deterministic (equal inputs give equal
outputs), monotonic non-decreasing, and defined by arithmetic alone, with no
reference to the encoder. -/
theorem claim_C6_transmit_size (m n : Nat) :
    (m = n → get_num_tx_data_bytes m = get_num_tx_data_bytes n) ∧
    (m ≤ n → get_num_tx_data_bytes m ≤ get_num_tx_data_bytes n) := by
  constructor
  · intro h
    rw [h]
  · intro h
    unfold get_num_tx_data_bytes ncwOf
    have h12 : (8 * m + 16 + 11) / 12 ≤ (8 * n + 16 + 11) / 12 :=
      Nat.div_le_div_right (by omega)
    have h23 : (23 * ((8 * m + 16 + 11) / 12) + 7) / 8 ≤
        (23 * ((8 * n + 16 + 11) / 12) + 7) / 8 :=
      Nat.div_le_div_right (by omega)
    omega

/-- Witness for C6 at the two supported payload sizes. -/
theorem claim_C6_transmit_size_witness :
    get_num_tx_data_bytes 22 = get_num_tx_data_bytes 22 ∧
    get_num_tx_data_bytes 22 ≤ get_num_tx_data_bytes 32 :=
  ⟨(claim_C6_transmit_size 22 22).1 rfl, (claim_C6_transmit_size 22 32).2 (by decide)⟩

/-- C7: decoding the spec's scenario-2 frame with expected length 22 reports
sync on the leading unique word, returns exactly 22 payload bytes through the
wrapper, and yields one error count per codeword — with no exception, since
every stage is total. -/
theorem claim_C7_scenario2 :
    (coreDecode horusV1Frame 22).synced = true ∧
    horus_l2_decode_packet (.pybytes horusV1Frame) 22 =
      .ok (.pybytes ((coreDecode horusV1Frame 22).payload)) ∧
    (coreDecode horusV1Frame 22).payload.length = 22 ∧
    (coreDecode horusV1Frame 22).errCounts.length = 16 := by
  refine ⟨rfl, horus_l2_decode_packet_ok _ _, coreDecode_payload_length _ _, ?_⟩
  rw [coreDecode_errCounts_length]
  rfl

/-- C8 counterexample: constructing the Encoder twice executes the native init
call twice — it is not guarded to run exactly once per process. -/
theorem claim_C8_counterexample :
    initCallCount (processTrace 2) = 2 ∧ initCallCount (processTrace 2) ≠ 1 := by
  have h := initCallCount_processTrace 2
  exact ⟨h, by rw [h]; decide⟩

/-- C8 (amended): `horus_l2_init` runs unconditionally once per Encoder
construction, so after `k` constructions it has run exactly `k` times. -/
theorem claim_C8_init_per_construction (k : Nat) :
    initCallCount (processTrace k) = k :=
  initCallCount_processTrace k

/-- C9: the encoded buffer returned by the wrapper (first element of the result
tuple) always has length exactly `get_num_tx_data_bytes` of the input length,
so callers can pre-size buffers from the size function alone. -/
theorem claim_C9_encode_length (bs : List Nat) :
    ∃ (buf : List Nat) (k : Int),
      horus_l2_encode_packet (.pybytes bs) =
        .ok (.pytuple [.pybytes buf, .pyint k]) ∧
      buf.length = get_num_tx_data_bytes bs.length :=
  ⟨coreEncode bs, get_num_tx_data_bytes bs.length,
    horus_l2_encode_packet_ok bs, coreEncode_length bs⟩

/-- C10: for every byte input — whether or not it starts with the unique word —
and every expected payload length `n`, the wrapper decode returns a `bytes`
value of length exactly `n` and never raises; the wrapper itself never inspects
the unique word. -/
theorem claim_C10_decode_total (bs : List Nat) (n : Nat) :
    ∃ p : List Nat, horus_l2_decode_packet (.pybytes bs) n = .ok (.pybytes p) ∧
      p.length = n :=
  ⟨(coreDecode bs n).payload, horus_l2_decode_packet_ok bs n,
    coreDecode_payload_length bs n⟩

end Horus
